import Mathlib

/-!
# A shallow embedding of `smokey.js`

This file embeds the classes of `smokey.js` (PathSegment, Path, Figure,
Smoke, SmokeParticle) and proves the testable properties stated in the
specification against that embedding.

Modelling conventions:

* JavaScript numbers are idealised as exact rationals (`ℚ`); 2D vectors are
  pairs `ℚ × ℚ` added componentwise.
* The host graphics environment (p5.js) supplies `noise`, `HALF_PI`,
  `p5.Vector.fromAngle`, `mag` and `setMag`; the spec places these outside
  the repository, so they are fields of an abstract `Host` record that all
  operations take as a parameter.  Theorems that need a fact about them
  (only: a vector built by `fromAngle` with non-negative length has that
  length as its magnitude) take it as an explicit hypothesis.
* The ambient random source `random(...)` is modelled as a stream
  `rs : ℕ → ℚ` of unit-interval samples consumed left to right, exactly in
  the order the constructors call `random`; `random(lo, hi)` reads one
  sample `r` and yields `lo + r * (hi - lo)`, `random(n)` yields `r * n`.
* `millis()` is passed in explicitly as the `now`/`time` argument.
* Methods that mutate `this` become functions returning the updated value.
* `Path.copy` aliasing (claim about shared references) is treated in a
  separate reference-level model at the end of the definitions section,
  with an explicit store of arrays, because value semantics cannot express
  JavaScript object identity.
-/

/-- A 2D vector, componentwise. -/
abbrev Vec : Type := ℚ × ℚ

/-- `class PathSegment`: a turn/length pair. -/
structure PathSegment where
  angle : ℚ
  distance : ℚ
deriving DecidableEq

/-- `PathSegment.copy()`. -/
def PathSegment.copy (s : PathSegment) : PathSegment :=
  PathSegment.mk s.angle s.distance

/-- The data of `class Path` / `class Figure` (Figure adds only drawing,
which is host-side rendering and out of scope). -/
structure Figure where
  originPosition : Vec
  originHeading : ℚ
  segments : List PathSegment
deriving DecidableEq

/-- The host (p5.js) primitives the sketch consumes, kept abstract: the
spec declares the noise generator, `HALF_PI`, and the vector operations to
be external collaborators. -/
structure Host where
  noise : ℚ → ℚ
  halfPi : ℚ
  fromAngle : ℚ → ℚ → Vec
  mag : Vec → ℚ
  setMag : Vec → ℚ → Vec

/-- `random(lo, hi)`: one sample from the unit-interval stream, scaled. -/
def randomBetween (rs : ℕ → ℚ) (k : ℕ) (lo hi : ℚ) : ℚ :=
  lo + rs k * (hi - lo)

/-- `random(n)`: one sample from the unit-interval stream, scaled by `n`. -/
def randomUpTo (rs : ℕ → ℚ) (k : ℕ) (n : ℚ) : ℚ :=
  rs k * n

/-- `class SmokeParticle`: all instance fields. -/
structure SmokeParticle where
  xoffOrigin : ℚ
  speed : ℚ
  distance : ℚ
  creationTime : ℚ
  lastTime : ℚ
  position : Vec
  xoffAngleStart : ℚ
  xoffAngle : ℚ
  gap : ℚ
  alpha : ℚ
  alphaDirection : ℤ
  isAlive : Bool
deriving DecidableEq

instance : Inhabited SmokeParticle :=
  ⟨⟨0, 0, 0, 0, 0, ((0 : ℚ), (0 : ℚ)), 0, 0, 0, 0, 0, true⟩⟩

/-- `SmokeParticle.fadeIn()`. -/
def SmokeParticle.fadeIn (p : SmokeParticle) : SmokeParticle :=
  { p with alpha := 0, alphaDirection := 1 }

/-- `SmokeParticle.fadeOut()`. -/
def SmokeParticle.fadeOut (p : SmokeParticle) : SmokeParticle :=
  { p with alpha := 255, alphaDirection := -1 }

/-- The `SmokeParticle` constructor (with `xoffOrigin = null`, as the
repository always calls it): consumes four random samples at `k..k+3`, in
source order, and ends by calling `fadeIn`.  Returns the particle and the
next unread stream index. -/
def mkSmokeParticle (rs : ℕ → ℚ) (k : ℕ) (now : ℚ) (distanceOffset : ℚ) :
    SmokeParticle × ℕ :=
  (SmokeParticle.fadeIn
    { xoffOrigin := randomUpTo rs k 2000000
      speed := randomBetween rs (k + 1) 100 150
      distance := distanceOffset
      creationTime := now
      lastTime := now
      position := ((0 : ℚ), (0 : ℚ))
      xoffAngleStart := randomUpTo rs (k + 2) 2000000
      xoffAngle := 0
      gap := randomUpTo rs (k + 3) 20
      alpha := 255
      alphaDirection := 0
      isAlive := true }, k + 4)

/-- `SmokeParticle.update(time)`. -/
def SmokeParticle.update (p : SmokeParticle) (time : ℚ) : SmokeParticle :=
  let elapsed : ℚ := (time - p.creationTime) / 1000
  let delta : ℚ := (time - p.lastTime) / 1000
  let q : SmokeParticle :=
    { p with lastTime := time
             distance := p.speed * elapsed
             xoffAngle := p.xoffAngleStart + elapsed * 2 }
  if delta = 0 then q
  else if q.alphaDirection = 1 then
    let a : ℚ := q.alpha + 300 * delta
    if 255 ≤ a then { q with alpha := 255, alphaDirection := 0 }
    else { q with alpha := a }
  else if q.alphaDirection = -1 then
    let a : ℚ := q.alpha - 300 * delta
    if a ≤ 0 then { q with alpha := 0, alphaDirection := 0, isAlive := false }
    else { q with alpha := a }
  else q

/-- `class Smoke`: a Figure plus its particle collection. -/
structure Smoke where
  originPosition : Vec
  originHeading : ℚ
  segments : List PathSegment
  particles : List SmokeParticle
deriving DecidableEq

/-- The result record of `walkToSegment`. -/
structure WalkLocation where
  offset : Vec
  heading : ℚ
deriving DecidableEq

/-- The loop of `Smoke.walkToSegment`: iterate over the segments, breaking
as soon as the running index reaches `branchIndex` (counted down here). -/
def Smoke.walkLoop (host : Host) :
    List PathSegment → ℕ → Vec → ℚ → WalkLocation
  | _, 0, pos, h => WalkLocation.mk pos h
  | [], _ + 1, pos, h => WalkLocation.mk pos h
  | s :: rest, b + 1, pos, h =>
    let h2 : ℚ := h + s.angle
    Smoke.walkLoop host rest b (pos + host.fromAngle h2 s.distance) h2

/-- `Smoke.walkToSegment(figure, branchIndex)`. -/
def Smoke.walkToSegment (host : Host) (figure : Figure) (branchIndex : ℕ) :
    WalkLocation :=
  Smoke.walkLoop host figure.segments branchIndex
    figure.originPosition figure.originHeading

/-- The loop body of `Smoke.createSmokePath`: `n` segments of distance 2
whose angles come from coherent noise, the noise cursor advancing by 0.004
per segment. -/
def Smoke.smokeSegments (host : Host) (xoff : ℚ) : ℕ → List PathSegment
  | 0 => []
  | n + 1 =>
    PathSegment.mk ((host.noise xoff - 0.5) * host.halfPi / 10) 2 ::
      Smoke.smokeSegments host (xoff + 0.004) n

/-- `Smoke.createSmokePath(length)`: consumes one random sample for the
initial noise cursor.  A non-positive `length` makes the loop body run zero
times, as in the source. -/
def Smoke.createSmokePath (host : Host) (rs : ℕ → ℚ) (k : ℕ) (length : ℤ) :
    List PathSegment × ℕ :=
  (Smoke.smokeSegments host (randomUpTo rs k 2000000) length.toNat, k + 1)

/-- `Smoke.spawnParticle()`: distance offset drawn from
`random(particles.length * 2)`, then the particle constructor's randoms. -/
def Smoke.spawnParticle (rs : ℕ → ℚ) (k : ℕ) (now : ℚ)
    (particles : List SmokeParticle) : List SmokeParticle × ℕ :=
  let length : ℚ := (particles.length : ℚ) * 2
  let distanceOffset : ℚ := randomUpTo rs k length
  let pk := mkSmokeParticle rs (k + 1) now distanceOffset
  (particles ++ [pk.1], pk.2)

/-- `Smoke.prepareParticles()`: exactly two `spawnParticle` calls on an
initially empty collection. -/
def Smoke.prepareParticles (rs : ℕ → ℚ) (k : ℕ) (now : ℚ) :
    List SmokeParticle × ℕ :=
  let s1 := Smoke.spawnParticle rs k now []
  Smoke.spawnParticle rs s1.2 now s1.1

/-- The `Smoke` constructor.  `branchIndex = none` models the `null`
default, in which case `floor(random(figure.segments.length))` consumes one
sample; then the length sample, the noise-cursor sample, and the particle
samples are consumed in source order. -/
def mkSmoke (host : Host) (rs : ℕ → ℚ) (k : ℕ) (now : ℚ) (figure : Figure)
    (branchIndex : Option ℕ) (minLength maxLength : ℚ) : Smoke :=
  let bk : ℕ × ℕ :=
    match branchIndex with
    | some b => (b, k)
    | none =>
      ((Int.floor (randomUpTo rs k (figure.segments.length : ℚ))).toNat, k + 1)
  let location := Smoke.walkToSegment host figure bk.1
  let length : ℤ := Int.floor (randomBetween rs bk.2 minLength maxLength)
  let sk := Smoke.createSmokePath host rs (bk.2 + 1) length
  let pk := Smoke.prepareParticles rs sk.2 now
  { originPosition := location.offset
    originHeading := location.heading
    segments := sk.1
    particles := pk.1 }

/-- The inner `while (true)` loop of `calculateParticlePositions`: place
pending particles into the current segment while `segment.distance >=
remainingDistance`.  Returns the particles placed in this segment (in
order) and either `none` — the `return` inside the loop, every particle
placed — or `some (pending, remainingDistance)` at the `break`. -/
def Smoke.placeLoop (host : Host) (pos : Vec) (vec : Vec) (segDist : ℚ) :
    List SmokeParticle → ℚ →
      List SmokeParticle × Option (List SmokeParticle × ℚ)
  | [], rd => ([], some ([], rd))
  | [p], rd =>
    if segDist ≥ rd then
      ([{ p with position := pos + host.setMag vec rd }], none)
    else ([], some ([p], rd))
  | p :: q :: rest2, rd =>
    if segDist ≥ rd then
      let out := Smoke.placeLoop host pos vec segDist (q :: rest2)
        (rd + q.distance - p.distance)
      ({ p with position := pos + host.setMag vec rd } :: out.1, out.2)
    else ([], some (p :: q :: rest2, rd))

/-- The body of the trailing loop of `calculateParticlePositions`: pin the
particle at the running position and, if it is not already fading out, call
`fadeOut` on it. -/
def Smoke.pinAndFade (pos : Vec) (p : SmokeParticle) : SmokeParticle :=
  let q : SmokeParticle := { p with position := pos }
  if q.alphaDirection ≠ -1 then q.fadeOut else q

/-- The outer segment loop of `calculateParticlePositions`, including the
trailing loop that pins overrun particles to the final position and fades
them out. -/
def Smoke.segmentLoop (host : Host) :
    List PathSegment → Vec → ℚ → List SmokeParticle → ℚ → List SmokeParticle
  | [], pos, _, pending, _ =>
    pending.map (Smoke.pinAndFade pos)
  | seg :: rest, pos, heading, pending, rd =>
    let h2 : ℚ := heading + seg.angle
    let vec : Vec := host.fromAngle h2 seg.distance
    let out := Smoke.placeLoop host pos vec seg.distance pending rd
    match out.2 with
    | none => out.1
    | some pr =>
      out.1 ++
        Smoke.segmentLoop host rest (pos + vec) h2 pr.1 (pr.2 - host.mag vec)

/-- `Smoke.calculateParticlePositions()`: return at once on an empty
collection, otherwise walk the segments with `remainingDistance` seeded
from the first particle's distance. -/
def Smoke.calculateParticlePositions (host : Host) (s : Smoke) : Smoke :=
  if s.particles = [] then s
  else
    { s with particles :=
        (Smoke.segmentLoop host s.segments s.originPosition s.originHeading
          s.particles s.particles.headI.distance) }

/-- `Smoke.update()`: advance every particle, keep the live ones, sort by
distance ascending, then recompute positions.  The `time` argument stands
for the single `millis()` sample. -/
def Smoke.update (host : Host) (s : Smoke) (time : ℚ) : Smoke :=
  let advanced :=
    (s.particles.map (fun p => p.update time)).filter (fun p => p.isAlive)
  let sorted := advanced.mergeSort (fun a b => decide (a.distance ≤ b.distance))
  Smoke.calculateParticlePositions host { s with particles := sorted }

/-! ## Specification-side path formulas

These follow the spec's wording for the replay property: the heading after
a prefix of segments is the origin heading plus the sum of their angles,
and the endpoint is the origin plus the sum of the directional vectors
taken at the cumulative headings. -/

/-- Sum of the angles of a list of segments. -/
def sumAngles (segs : List PathSegment) : ℚ :=
  (segs.map PathSegment.angle).sum

/-- Sum of the directional vectors of a list of segments, each taken at the
cumulative heading (starting heading `h`). -/
def pathVectorSum (fromAngle : ℚ → ℚ → Vec) (h : ℚ) :
    List PathSegment → Vec
  | [] => ((0 : ℚ), (0 : ℚ))
  | s :: rest =>
    fromAngle (h + s.angle) s.distance +
      pathVectorSum fromAngle (h + s.angle) rest

/-- Total arc length of a list of segments. -/
def totalDistance (segs : List PathSegment) : ℚ :=
  (segs.map PathSegment.distance).sum

/-- The final vertex of a Smoke's path: its origin plus the sum of all its
segment vectors. -/
def Smoke.finalVertex (host : Host) (s : Smoke) : Vec :=
  s.originPosition + pathVectorSum host.fromAngle s.originHeading s.segments

/-! ## Particle lemmas -/

theorem SmokeParticle.update_distance (p : SmokeParticle) (t : ℚ) :
    (p.update t).distance = p.speed * ((t - p.creationTime) / 1000) := by
  simp only [SmokeParticle.update]
  split_ifs <;> rfl

theorem SmokeParticle.update_creationTime (p : SmokeParticle) (t : ℚ) :
    (p.update t).creationTime = p.creationTime := by
  simp only [SmokeParticle.update]
  split_ifs <;> rfl

theorem SmokeParticle.update_speed (p : SmokeParticle) (t : ℚ) :
    (p.update t).speed = p.speed := by
  simp only [SmokeParticle.update]
  split_ifs <;> rfl

theorem SmokeParticle.update_dead (p : SmokeParticle) (t : ℚ)
    (h : p.isAlive = false) : (p.update t).isAlive = false := by
  simp only [SmokeParticle.update]
  split_ifs <;> simp [h]

theorem SmokeParticle.foldl_update_dead (ts : List ℚ) (p : SmokeParticle)
    (h : p.isAlive = false) :
    (ts.foldl (fun q u => q.update u) p).isAlive = false := by
  induction ts generalizing p with
  | nil => simpa using h
  | cons u rest ih => exact ih _ (p.update_dead u h)

/-- C5: starting from an alpha in `[0, 255]`, an `update` at any time not
earlier than the particle's `lastTime` leaves alpha in `[0, 255]`: the
fade-in increment clamps at 255 and the fade-out decrement clamps at 0,
for arbitrarily large time deltas. -/
theorem update_alpha_bounds (p : SmokeParticle) (t : ℚ)
    (h0 : 0 ≤ p.alpha) (h255 : p.alpha ≤ 255) (ht : p.lastTime ≤ t) :
    0 ≤ (p.update t).alpha ∧ (p.update t).alpha ≤ 255 := by
  have hdelta : 0 ≤ (t - p.lastTime) / 1000 := by
    apply div_nonneg (by linarith) (by norm_num)
  simp only [SmokeParticle.update]
  split_ifs with h1 h2 h3 h4 h5
  · exact ⟨h0, h255⟩
  · exact ⟨by norm_num, by norm_num⟩
  · constructor <;> simp only [] <;> [linarith; linarith]
  · exact ⟨by norm_num, by norm_num⟩
  · constructor <;> simp only [] <;> [linarith; linarith]
  · exact ⟨h0, h255⟩

/-- C5 witness. -/
theorem update_alpha_bounds_witness :
    0 ≤ (SmokeParticle.fadeIn default).alpha ∧
      (SmokeParticle.fadeIn default).alpha ≤ 255 ∧
      (SmokeParticle.fadeIn default).lastTime ≤ 5000 ∧
      0 ≤ ((SmokeParticle.fadeIn default).update 5000).alpha ∧
      ((SmokeParticle.fadeIn default).update 5000).alpha ≤ 255 := by
  have h :=
    update_alpha_bounds (SmokeParticle.fadeIn default) 5000
      (by norm_num [SmokeParticle.fadeIn, default])
      (by norm_num [SmokeParticle.fadeIn, default])
      (by norm_num [SmokeParticle.fadeIn, default])
  refine ⟨by norm_num [SmokeParticle.fadeIn, default],
    by norm_num [SmokeParticle.fadeIn, default],
    by norm_num [SmokeParticle.fadeIn, default], h.1, h.2⟩

/-- C9: because `distance` is recomputed as `speed * elapsed / 1000` from
the creation time (not incrementally integrated), two successive updates
at times `t1 ≤ t2` (both at or after creation, constant positive speed)
yield non-decreasing distances. -/
theorem update_distance_monotone (p : SmokeParticle) (t1 t2 : ℚ)
    (hspeed : 0 < p.speed) (_hc : p.creationTime ≤ t1) (h12 : t1 ≤ t2) :
    (p.update t1).distance ≤ ((p.update t1).update t2).distance := by
  rw [SmokeParticle.update_distance, SmokeParticle.update_distance,
    SmokeParticle.update_creationTime, SmokeParticle.update_speed]
  have h1 : (t1 - p.creationTime) / 1000 ≤ (t2 - p.creationTime) / 1000 := by
    linarith
  exact mul_le_mul_of_nonneg_left h1 hspeed.le

/-- A fixed concrete particle used by the concrete instances below. -/
def probe : SmokeParticle :=
  ⟨1, 120, 0, 0, 0, ((0 : ℚ), (0 : ℚ)), 2, 0, 3, 200, 0, true⟩

/-- C9 witness. -/
theorem update_distance_monotone_witness :
    0 < probe.speed ∧ probe.creationTime ≤ 1000 ∧ ((1000 : ℚ) ≤ 2000) ∧
      (probe.update 1000).distance ≤ ((probe.update 1000).update 2000).distance := by
  refine ⟨by norm_num [probe], by norm_num [probe], by norm_num,
    update_distance_monotone probe 1000 2000 (by norm_num [probe])
      (by norm_num [probe]) (by norm_num)⟩

/-! ## Provenance of particles through `calculateParticlePositions` -/

theorem Smoke.pinAndFade_isAlive (pos : Vec) (p : SmokeParticle) :
    (Smoke.pinAndFade pos p).isAlive = p.isAlive := by
  simp only [Smoke.pinAndFade, SmokeParticle.fadeOut]
  split_ifs <;> rfl

theorem Smoke.placeLoop_provenance (host : Host) (pos vec : Vec) (segDist : ℚ) :
    ∀ (pending : List SmokeParticle) (rd : ℚ),
      (∀ q ∈ (Smoke.placeLoop host pos vec segDist pending rd).1,
        ∃ p ∈ pending, q.isAlive = p.isAlive ∧ q.distance = p.distance) ∧
      (∀ pending2 rd2,
        (Smoke.placeLoop host pos vec segDist pending rd).2 = some (pending2, rd2) →
          ∀ p ∈ pending2, p ∈ pending) := by
  intro pending
  induction pending with
  | nil =>
    intro rd
    have heq : Smoke.placeLoop host pos vec segDist [] rd = ([], some ([], rd)) := rfl
    refine ⟨?_, ?_⟩
    · intro q hq
      rw [heq] at hq
      simp at hq
    · intro pending2 rd2 h2
      rw [heq] at h2
      simp only [Option.some.injEq, Prod.mk.injEq] at h2
      intro p hp
      rw [← h2.1] at hp
      simp at hp
  | cons p0 rest ih =>
    intro rd
    cases rest with
    | nil =>
      simp only [Smoke.placeLoop]
      split_ifs with hge
      · refine ⟨?_, ?_⟩
        · intro q hq
          simp only [List.mem_singleton] at hq
          exact ⟨p0, by simp, by simp [hq]⟩
        · intro pending2 rd2 h2
          simp at h2
      · refine ⟨?_, ?_⟩
        · intro q hq
          simp at hq
        · intro pending2 rd2 h2
          simp only [Option.some.injEq, Prod.mk.injEq] at h2
          intro p hp
          rw [← h2.1] at hp
          exact hp
    | cons q1 rest2 =>
      simp only [Smoke.placeLoop]
      split_ifs with hge
      · have ihq := ih (rd + q1.distance - p0.distance)
        refine ⟨?_, ?_⟩
        · intro q hq
          simp only [List.mem_cons] at hq
          rcases hq with hq | hq
          · exact ⟨p0, by simp, by simp [hq]⟩
          · obtain ⟨p, hp, hal⟩ := ihq.1 q hq
            exact ⟨p, List.mem_cons_of_mem _ hp, hal⟩
        · intro pending2 rd2 h2
          intro p hp
          exact List.mem_cons_of_mem _ (ihq.2 pending2 rd2 h2 p hp)
      · refine ⟨?_, ?_⟩
        · intro q hq
          simp at hq
        · intro pending2 rd2 h2
          simp only [Option.some.injEq, Prod.mk.injEq] at h2
          intro p hp
          rw [← h2.1] at hp
          exact hp

theorem Smoke.segmentLoop_provenance (host : Host) :
    ∀ (segs : List PathSegment) (pos : Vec) (h : ℚ)
      (pending : List SmokeParticle) (rd : ℚ),
      ∀ q ∈ Smoke.segmentLoop host segs pos h pending rd,
        ∃ p ∈ pending, q.isAlive = p.isAlive := by
  intro segs
  induction segs with
  | nil =>
    intro pos h pending rd q hq
    simp only [Smoke.segmentLoop, List.mem_map] at hq
    obtain ⟨p, hp, hq⟩ := hq
    exact ⟨p, hp, by rw [← hq, Smoke.pinAndFade_isAlive]⟩
  | cons seg rest ih =>
    intro pos h pending rd q hq
    simp only [Smoke.segmentLoop] at hq
    rcases hout : (Smoke.placeLoop host pos (host.fromAngle (h + seg.angle) seg.distance)
        seg.distance pending rd).2 with _ | ⟨pending2, rd2⟩
    · rw [hout] at hq
      simp only at hq
      obtain ⟨p, hp, hal, _⟩ :=
        (Smoke.placeLoop_provenance host pos _ seg.distance pending rd).1 q hq
      exact ⟨p, hp, hal⟩
    · rw [hout] at hq
      simp only [List.mem_append] at hq
      rcases hq with hq | hq
      · obtain ⟨p, hp, hal, _⟩ :=
          (Smoke.placeLoop_provenance host pos _ seg.distance pending rd).1 q hq
        exact ⟨p, hp, hal⟩
      · obtain ⟨p, hp, hal⟩ := ih _ _ _ _ q hq
        have hsub :=
          (Smoke.placeLoop_provenance host pos _ seg.distance pending rd).2
            pending2 rd2 hout p hp
        exact ⟨p, hsub, hal⟩

theorem Smoke.calculateParticlePositions_provenance (host : Host) (s : Smoke) :
    ∀ q ∈ (Smoke.calculateParticlePositions host s).particles,
      ∃ p ∈ s.particles, q.isAlive = p.isAlive := by
  intro q hq
  rw [Smoke.calculateParticlePositions] at hq
  split_ifs at hq with hnil
  · exact ⟨q, hq, rfl⟩
  · exact Smoke.segmentLoop_provenance host s.segments s.originPosition
      s.originHeading s.particles s.particles.headI.distance q hq

/-- C6: when a fading-out particle's update drives alpha to 0 (the
direction flag flips from -1 to 0), `isAlive` becomes false, stays false
through any further sequence of updates, and no `Smoke.update` ever holds a
dead particle: every particle surviving a `Smoke.update` is alive. -/
theorem particle_death_terminal (p : SmokeParticle) (t : ℚ) (ts : List ℚ)
    (hdir : p.alphaDirection = -1)
    (hflip : (p.update t).alphaDirection = 0) :
    (p.update t).alpha = 0 ∧ (p.update t).isAlive = false ∧
      (ts.foldl (fun q u => q.update u) (p.update t)).isAlive = false ∧
      ∀ (host : Host) (s : Smoke) (time : ℚ),
        ∀ q ∈ (Smoke.update host s time).particles, q.isAlive = true := by
  have hmain : (p.update t).alpha = 0 ∧ (p.update t).isAlive = false := by
    simp only [SmokeParticle.update] at hflip ⊢
    split_ifs at hflip ⊢ <;> simp_all
  refine ⟨hmain.1, hmain.2, SmokeParticle.foldl_update_dead ts _ hmain.2, ?_⟩
  intro host s time q hq
  simp only [Smoke.update] at hq
  obtain ⟨p2, hp2, hal⟩ :=
    Smoke.calculateParticlePositions_provenance host _ q hq
  simp only [List.mem_mergeSort, List.mem_filter] at hp2
  rw [hal]
  exact hp2.2

/-- C6 witness. -/
theorem particle_death_terminal_witness :
    (SmokeParticle.fadeOut probe).alphaDirection = -1 ∧
      ((SmokeParticle.fadeOut probe).update 5000).alphaDirection = 0 ∧
      ((SmokeParticle.fadeOut probe).update 5000).alpha = 0 ∧
      ((SmokeParticle.fadeOut probe).update 5000).isAlive = false ∧
      (([6000, 7000] : List ℚ).foldl (fun q u => q.update u)
        ((SmokeParticle.fadeOut probe).update 5000)).isAlive = false := by
  have h :=
    particle_death_terminal (SmokeParticle.fadeOut probe) 5000 [6000, 7000]
      (by norm_num [SmokeParticle.fadeOut, probe])
      (by norm_num [SmokeParticle.update, SmokeParticle.fadeOut, probe])
  exact ⟨by norm_num [SmokeParticle.fadeOut, probe],
    by norm_num [SmokeParticle.update, SmokeParticle.fadeOut, probe],
    h.1, h.2.1, h.2.2.1⟩

/-! ## Path replay -/

theorem Smoke.walkLoop_take (host : Host) :
    ∀ (segs : List PathSegment) (bi : ℕ) (pos : Vec) (h : ℚ),
      Smoke.walkLoop host segs bi pos h =
        WalkLocation.mk (pos + pathVectorSum host.fromAngle h (segs.take bi))
          (h + sumAngles (segs.take bi)) := by
  intro segs
  induction segs with
  | nil =>
    intro bi pos h
    cases bi with
    | zero => simp [Smoke.walkLoop, pathVectorSum, sumAngles]
    | succ b => simp [Smoke.walkLoop, pathVectorSum, sumAngles]
  | cons s rest ih =>
    intro bi pos h
    cases bi with
    | zero => simp [Smoke.walkLoop, pathVectorSum, sumAngles]
    | succ b =>
      simp only [Smoke.walkLoop, List.take_succ_cons, ih, pathVectorSum,
        WalkLocation.mk.injEq]
      constructor
      · rw [add_assoc]
      · simp only [sumAngles, List.map_cons, List.sum_cons]
        ring

/-- C3: `walkToSegment` replays the parent figure: for any `branchIndex`
within range, the returned heading is the origin heading plus the sum of
the angles of the first `branchIndex` segments, and the returned position
is the origin position plus the vector sum of those segments' directional
vectors at their cumulative headings — segments at or after `branchIndex`
play no part (the result depends only on `segments.take branchIndex`). -/
theorem walkToSegment_replay (host : Host) (figure : Figure)
    (branchIndex : ℕ) (_hbi : branchIndex ≤ figure.segments.length) :
    Smoke.walkToSegment host figure branchIndex =
      WalkLocation.mk
        (figure.originPosition +
          pathVectorSum host.fromAngle figure.originHeading
            (figure.segments.take branchIndex))
        (figure.originHeading +
          sumAngles (figure.segments.take branchIndex)) :=
  Smoke.walkLoop_take host figure.segments branchIndex
    figure.originPosition figure.originHeading

/-- A fixed concrete host used by the concrete instances below:
`fromAngle` lays every vector along the x axis, so its magnitude is the
absolute value of the first coordinate. -/
def hostW : Host :=
  { noise := fun _ => 0
    halfPi := 157 / 100
    fromAngle := fun _ d => (d, 0)
    mag := fun v => |v.1|
    setMag := fun _ m => (m, 0) }

/-- A fixed concrete one-segment parent figure. -/
def figW : Figure :=
  { originPosition := (3, 4)
    originHeading := 5
    segments := [PathSegment.mk 1 6] }

/-- C3 witness. -/
theorem walkToSegment_replay_witness :
    (1 ≤ figW.segments.length) ∧
      Smoke.walkToSegment hostW figW 1 =
        WalkLocation.mk
          (figW.originPosition +
            pathVectorSum hostW.fromAngle figW.originHeading
              (figW.segments.take 1))
          (figW.originHeading + sumAngles (figW.segments.take 1)) :=
  ⟨by norm_num [figW], walkToSegment_replay hostW figW 1 (by norm_num [figW])⟩

/-- C10: calling `walkToSegment` with a `branchIndex` at or beyond the
number of segments does not fail: the loop simply traverses every segment,
returning the figure's final endpoint — the same result as
`branchIndex = segments.length`. -/
theorem walkToSegment_out_of_range (host : Host) (figure : Figure)
    (branchIndex : ℕ) (hbi : figure.segments.length ≤ branchIndex) :
    Smoke.walkToSegment host figure branchIndex =
      Smoke.walkToSegment host figure figure.segments.length := by
  unfold Smoke.walkToSegment
  rw [Smoke.walkLoop_take, Smoke.walkLoop_take,
    List.take_of_length_le hbi, List.take_of_length_le (le_refl _)]

/-- C10 witness. -/
theorem walkToSegment_out_of_range_witness :
    (figW.segments.length ≤ 7) ∧
      Smoke.walkToSegment hostW figW 7 =
        Smoke.walkToSegment hostW figW figW.segments.length :=
  ⟨by norm_num [figW],
    walkToSegment_out_of_range hostW figW 7 (by norm_num [figW])⟩

/-! ## Path generation -/

theorem Smoke.smokeSegments_length (host : Host) :
    ∀ (n : ℕ) (xoff : ℚ), (Smoke.smokeSegments host xoff n).length = n := by
  intro n
  induction n with
  | zero => intro xoff; rfl
  | succ m ih =>
    intro xoff
    simp [Smoke.smokeSegments, ih]

theorem Smoke.smokeSegments_distance (host : Host) :
    ∀ (n : ℕ) (xoff : ℚ) (g : PathSegment),
      g ∈ Smoke.smokeSegments host xoff n → g.distance = 2 := by
  intro n
  induction n with
  | zero => intro xoff g hg; simp [Smoke.smokeSegments] at hg
  | succ m ih =>
    intro xoff g hg
    simp only [Smoke.smokeSegments, List.mem_cons] at hg
    rcases hg with hg | hg
    · rw [hg]
    · exact ih _ g hg

/-- C4: with the default `minLength = 50`, `maxLength = 100`, every value
of the unit-interval random source yields a generated path of between 50
and 100 segments inclusive (the floor of `50 + r·50` with `0 ≤ r < 1`,
which in fact never exceeds 99). -/
theorem mkSmoke_default_length_bounds (host : Host) (rs : ℕ → ℚ) (k : ℕ)
    (now : ℚ) (figure : Figure) (branchIndex : Option ℕ)
    (hrs : ∀ i, 0 ≤ rs i ∧ rs i < 1) :
    50 ≤ (mkSmoke host rs k now figure branchIndex 50 100).segments.length ∧
      (mkSmoke host rs k now figure branchIndex 50 100).segments.length ≤ 100 := by
  have key : ∀ k1 : ℕ,
      50 ≤ (Int.floor (randomBetween rs k1 50 100)).toNat ∧
        (Int.floor (randomBetween rs k1 50 100)).toNat ≤ 100 := by
    intro k1
    obtain ⟨hr0, hr1⟩ := hrs k1
    have hlo : (50 : ℤ) ≤ Int.floor (randomBetween rs k1 50 100) := by
      rw [Int.le_floor]
      unfold randomBetween
      push_cast
      nlinarith
    have hhi : Int.floor (randomBetween rs k1 50 100) < 100 := by
      rw [Int.floor_lt]
      unfold randomBetween
      push_cast
      nlinarith
    omega
  cases branchIndex with
  | none =>
    simp only [mkSmoke, Smoke.createSmokePath, Smoke.smokeSegments_length]
    exact key (k + 1)
  | some b =>
    simp only [mkSmoke, Smoke.createSmokePath, Smoke.smokeSegments_length]
    exact key k

/-- C4 witness. -/
theorem mkSmoke_default_length_bounds_witness :
    ((∀ i, 0 ≤ (fun _ : ℕ => (1 : ℚ) / 2) i ∧ (fun _ : ℕ => (1 : ℚ) / 2) i < 1) ∧
      50 ≤ (mkSmoke hostW (fun _ => 1 / 2) 0 0 figW none 50 100).segments.length ∧
        (mkSmoke hostW (fun _ => 1 / 2) 0 0 figW none 50 100).segments.length ≤ 100) := by
  have hrs : ∀ i : ℕ, 0 ≤ (fun _ : ℕ => (1 : ℚ) / 2) i ∧
      (fun _ : ℕ => (1 : ℚ) / 2) i < 1 := by
    intro i
    norm_num
  exact ⟨hrs, mkSmoke_default_length_bounds hostW (fun _ => 1 / 2) 0 0 figW none hrs⟩

theorem Smoke.smokeSegments_total (host : Host) :
    ∀ (n : ℕ) (xoff : ℚ),
      totalDistance (Smoke.smokeSegments host xoff n) = 2 * n := by
  intro n
  induction n with
  | zero => intro xoff; simp [Smoke.smokeSegments, totalDistance]
  | succ m ih =>
    intro xoff
    simp only [Smoke.smokeSegments, totalDistance, List.map_cons, List.sum_cons]
    rw [show ((Smoke.smokeSegments host (xoff + 0.004) m).map
      PathSegment.distance).sum = totalDistance (Smoke.smokeSegments host
        (xoff + 0.004) m) from rfl, ih]
    push_cast
    ring

/-- C1 (amended): a Smoke built from a 1-segment parent figure with
`branchIndex = 0` and `minLength = maxLength = 10` has exactly 10 segments
of distance 2 (total arc length 20) and exactly 2 initial particles, all
created at construction time; but calling `update` at a time equal to a
particle's `creationTime` sets its distance to `speed * 0 = 0`, because
`update` recomputes `distance` from elapsed time and discards the
`distanceOffset` the particle was constructed with (only the first
particle, whose offset is 0, keeps a distance equal to its offset). -/
theorem mkSmoke_fixed_scenario (host : Host) (rs : ℕ → ℚ) (k : ℕ)
    (now : ℚ) (figure : Figure) (_hfig : figure.segments.length = 1) :
    (mkSmoke host rs k now figure (some 0) 10 10).segments.length = 10 ∧
      (∀ g ∈ (mkSmoke host rs k now figure (some 0) 10 10).segments,
        g.distance = 2) ∧
      totalDistance (mkSmoke host rs k now figure (some 0) 10 10).segments = 20 ∧
      (mkSmoke host rs k now figure (some 0) 10 10).particles.length = 2 ∧
      ∀ p ∈ (mkSmoke host rs k now figure (some 0) 10 10).particles,
        p.creationTime = now ∧ (p.update now).distance = 0 := by
  have hrb : randomBetween rs k 10 10 = 10 := by
    unfold randomBetween
    ring
  have hfloor : (Int.floor (randomBetween rs k 10 10)).toNat = 10 := by
    rw [hrb]
    have h10 : Int.floor ((10 : ℚ)) = 10 := by norm_num
    rw [h10]
    rfl
  have hsegs : (mkSmoke host rs k now figure (some 0) 10 10).segments =
      Smoke.smokeSegments host (randomUpTo rs (k + 1) 2000000) 10 := by
    simp only [mkSmoke, Smoke.createSmokePath, hfloor]
  have hparts : (mkSmoke host rs k now figure (some 0) 10 10).particles =
      [(mkSmokeParticle rs (k + 3) now
          (randomUpTo rs (k + 2) (((0 : ℕ) : ℚ) * 2))).1,
        (mkSmokeParticle rs (k + 8) now
          (randomUpTo rs (k + 7) (((1 : ℕ) : ℚ) * 2))).1] := by
    simp only [mkSmoke, Smoke.createSmokePath, Smoke.prepareParticles,
      Smoke.spawnParticle, mkSmokeParticle, List.nil_append,
      List.length_nil, List.length_cons, List.singleton_append]
  refine ⟨?_, ?_, ?_, ?_, ?_⟩
  · rw [hsegs, Smoke.smokeSegments_length]
  · rw [hsegs]
    intro g hg
    exact Smoke.smokeSegments_distance host 10 _ g hg
  · rw [hsegs, Smoke.smokeSegments_total]
    norm_num
  · rw [hparts]
    rfl
  · rw [hparts]
    intro p hp
    have hct : p.creationTime = now := by
      rcases List.mem_cons.mp hp with hp1 | hp2
      · rw [hp1]; rfl
      · rcases List.mem_cons.mp hp2 with hp1 | hp1
        · rw [hp1]; rfl
        · simp at hp1
    refine ⟨hct, ?_⟩
    rw [SmokeParticle.update_distance, hct]
    ring

/-- C1 witness (for the amended statement). -/
theorem mkSmoke_fixed_scenario_witness :
    (figW.segments.length = 1) ∧
      (mkSmoke hostW (fun _ => 1 / 2) 0 0 figW (some 0) 10 10).segments.length = 10 ∧
      (mkSmoke hostW (fun _ => 1 / 2) 0 0 figW (some 0) 10 10).particles.length = 2 := by
  have h :=
    mkSmoke_fixed_scenario hostW (fun _ => 1 / 2) 0 0 figW (by norm_num [figW])
  exact ⟨by norm_num [figW], h.1, h.2.2.2.1⟩

/-- C1 counterexample: in the fixed scenario (constant random source 1/2)
the second initial particle is constructed with `distanceOffset =
random(2) = 1` — its `distance` field before any update — yet after
`update` at a time equal to its `creationTime` its distance is 0:
`update` overwrites the constructed offset with `speed * elapsed`, so the
claim "each particle's distance equals the distanceOffset it was
constructed with" fails on the code. -/
theorem mkSmoke_fixed_scenario_counterexample :
    ((mkSmoke hostW (fun _ => 1 / 2) 0 0 figW (some 0) 10 10).particles.getD 1
        probe).distance = 1 ∧
      (((mkSmoke hostW (fun _ => 1 / 2) 0 0 figW (some 0) 10 10).particles.getD 1
          probe).update 0).distance = 0 ∧
      (((mkSmoke hostW (fun _ => 1 / 2) 0 0 figW (some 0) 10 10).particles.getD 1
          probe).update 0).distance ≠
        ((mkSmoke hostW (fun _ => 1 / 2) 0 0 figW (some 0) 10 10).particles.getD 1
          probe).distance := by
  refine ⟨?_, ?_, ?_⟩ <;>
    norm_num [mkSmoke, Smoke.createSmokePath, Smoke.prepareParticles,
      Smoke.spawnParticle, mkSmokeParticle, SmokeParticle.fadeIn, randomUpTo,
      randomBetween, List.getD, SmokeParticle.update]

/-- A fixed concrete zero-segment parent figure. -/
def figEmpty : Figure :=
  { originPosition := (2, 3)
    originHeading := 1
    segments := [] }

/-- C8 (amended): the constructor performs no validation at all: for any
random source, any `minLength`/`maxLength` (including negative or
inverted bounds) and a parent figure with zero segments, `mkSmoke`
silently returns a fully formed Smoke branching at the figure's own
origin, with the usual two particles — there is no `InvalidArgument`
signal of any kind in the code, the constructor is total. -/
theorem mkSmoke_no_validation (host : Host) (rs : ℕ → ℚ) (k : ℕ) (now : ℚ)
    (figure : Figure) (minLength maxLength : ℚ)
    (hfig : figure.segments = []) :
    (mkSmoke host rs k now figure none minLength maxLength).originPosition =
        figure.originPosition ∧
      (mkSmoke host rs k now figure none minLength maxLength).originHeading =
        figure.originHeading ∧
      (mkSmoke host rs k now figure none minLength
        maxLength).particles.length = 2 := by
  have hwalk : ∀ bi,
      Smoke.walkToSegment host figure bi =
        WalkLocation.mk figure.originPosition figure.originHeading := by
    intro bi
    unfold Smoke.walkToSegment
    rw [hfig]
    cases bi <;> rfl
  refine ⟨?_, ?_, ?_⟩
  · simp only [mkSmoke, hwalk]
  · simp only [mkSmoke, hwalk]
  · simp only [mkSmoke, Smoke.prepareParticles, Smoke.spawnParticle,
      List.nil_append, List.singleton_append, List.length_cons,
      List.length_nil]

/-- C8 counterexample: constructing a Smoke from a zero-segment parent
figure with negative (and therefore also inverted-order-compatible) length
bounds `minLength = maxLength = -5` silently succeeds, producing exactly
the degenerate result the claim says must be prevented: a Smoke with an
empty segment list, the figure's origin, and two particles — no
`InvalidArgument` condition is signalled. -/
theorem mkSmoke_no_validation_counterexample :
    (mkSmoke hostW (fun _ => 1 / 2) 0 0 figEmpty none (-5) (-5)).segments = [] ∧
      (mkSmoke hostW (fun _ => 1 / 2) 0 0 figEmpty none (-5) (-5)).originPosition =
        (2, 3) ∧
      (mkSmoke hostW (fun _ => 1 / 2) 0 0 figEmpty none (-5)
        (-5)).particles.length = 2 := by
  refine ⟨?_, ?_, ?_⟩ <;>
    norm_num [mkSmoke, Smoke.createSmokePath, Smoke.smokeSegments,
      Smoke.prepareParticles, Smoke.spawnParticle, mkSmokeParticle,
      SmokeParticle.fadeIn, randomUpTo, randomBetween, Smoke.walkToSegment,
      Smoke.walkLoop, figEmpty, hostW]

/-- C8 witness (for the amended statement). -/
theorem mkSmoke_no_validation_witness :
    (figEmpty.segments = []) ∧
      (mkSmoke hostW (fun _ => 1 / 2) 0 0 figEmpty none 50 100).originPosition =
        figEmpty.originPosition ∧
      (mkSmoke hostW (fun _ => 1 / 2) 0 0 figEmpty none 50
        100).particles.length = 2 := by
  have h :=
    mkSmoke_no_validation hostW (fun _ => 1 / 2) 0 0 figEmpty 50 100
      (by norm_num [figEmpty])
  exact ⟨by norm_num [figEmpty], h.1, h.2.2⟩

/-! ## Reference-level model of `Path.copy`

JavaScript object identity cannot be expressed in a value semantics, so
`Path.copy`'s aliasing behaviour is modelled with explicit references: a
path holds a reference (a number) to its origin vector object and a
reference to its segment array, and a store maps array references to their
contents.  `new Path()` allocates a fresh array at the next free
reference; `copy()` keeps the same origin reference but fills the fresh
array with element-wise copies of the source segments via `addSegment`,
exactly as the `forEach` in the source does. -/

/-- A `Path` object at the reference level. -/
structure HeapPath where
  originPosition : ℕ
  originHeading : ℚ
  segments : ℕ

/-- The store of segment arrays, indexed by reference. -/
structure SegmentStore where
  arrays : List (List PathSegment)
deriving DecidableEq

/-- Dereference a segment array. -/
def SegmentStore.getSegments (st : SegmentStore) (r : ℕ) : List PathSegment :=
  st.arrays.getD r []

/-- `Path.addSegment(segment)`: push onto the path's own array. -/
def HeapPath.addSegment (st : SegmentStore) (p : HeapPath) (s : PathSegment) :
    SegmentStore :=
  SegmentStore.mk (st.arrays.set p.segments (st.getSegments p.segments ++ [s]))

/-- `Path.copy()`: a fresh `Path` (fresh empty segment array at the next
free reference), the same `originPosition` reference, the same heading,
then `addSegment(segment.copy())` for each source segment in order. -/
def HeapPath.copy (st : SegmentStore) (p : HeapPath) :
    SegmentStore × HeapPath :=
  let fresh : HeapPath :=
    HeapPath.mk p.originPosition p.originHeading st.arrays.length
  let st1 : SegmentStore := SegmentStore.mk (st.arrays ++ [[]])
  let st2 : SegmentStore :=
    (st.getSegments p.segments).foldl
      (fun acc s => HeapPath.addSegment acc fresh s.copy) st1
  (st2, fresh)

theorem PathSegment.copy_eq (s : PathSegment) : s.copy = s := rfl

theorem SegmentStore.getSegments_set_self (st : SegmentStore) (r : ℕ)
    (v : List PathSegment) (hr : r < st.arrays.length) :
    (SegmentStore.mk (st.arrays.set r v)).getSegments r = v := by
  simp [SegmentStore.getSegments, List.getD_eq_getElem?_getD,
    List.getElem?_set_self, hr]

theorem SegmentStore.getSegments_set_ne (st : SegmentStore) (r r2 : ℕ)
    (v : List PathSegment) (hne : r ≠ r2) :
    (SegmentStore.mk (st.arrays.set r v)).getSegments r2 =
      st.getSegments r2 := by
  simp [SegmentStore.getSegments, List.getD_eq_getElem?_getD,
    List.getElem?_set_ne hne]

/-- The `forEach addSegment` fold: it appends copies onto the fresh array,
leaves every other array untouched, and preserves the store's extent. -/
theorem HeapPath.addSegment_fold (fresh : HeapPath) :
    ∀ (xs : List PathSegment) (st : SegmentStore),
      fresh.segments < st.arrays.length →
      ((xs.foldl (fun acc s => HeapPath.addSegment acc fresh s.copy)
          st).arrays.length = st.arrays.length ∧
        (xs.foldl (fun acc s => HeapPath.addSegment acc fresh s.copy)
          st).getSegments fresh.segments =
          st.getSegments fresh.segments ++ xs.map PathSegment.copy ∧
        ∀ r2, r2 ≠ fresh.segments →
          (xs.foldl (fun acc s => HeapPath.addSegment acc fresh s.copy)
            st).getSegments r2 = st.getSegments r2) := by
  intro xs
  induction xs with
  | nil =>
    intro st hlt
    exact ⟨rfl, by simp, fun r2 _ => rfl⟩
  | cons x rest ih =>
    intro st hlt
    have hstep : (HeapPath.addSegment st fresh x.copy).arrays.length =
        st.arrays.length := by
      simp [HeapPath.addSegment, List.length_set]
    have hlt2 : fresh.segments < (HeapPath.addSegment st fresh x.copy).arrays.length := by
      rw [hstep]; exact hlt
    obtain ⟨ihlen, ihself, ihother⟩ := ih (HeapPath.addSegment st fresh x.copy) hlt2
    refine ⟨by rw [List.foldl_cons, ihlen, hstep], ?_, ?_⟩
    · rw [List.foldl_cons, ihself]
      have hget : (HeapPath.addSegment st fresh x.copy).getSegments fresh.segments =
          st.getSegments fresh.segments ++ [x.copy] := by
        simp only [HeapPath.addSegment]
        exact SegmentStore.getSegments_set_self st fresh.segments _ hlt
      rw [hget]
      simp
    · intro r2 hr2
      rw [List.foldl_cons, ihother r2 hr2]
      simp only [HeapPath.addSegment]
      exact SegmentStore.getSegments_set_ne st fresh.segments r2 _ fun h =>
        hr2 h.symm

/-- C7: `Path.copy()` returns a path sharing the very same origin-vector
reference while owning a fresh, element-wise-copied segment array:
the copy's contents equal the original's, the original is untouched by the
copying, and `addSegment` on either path leaves the other path's segment
sequence unchanged. -/
theorem heapPath_copy_independent (st : SegmentStore) (p : HeapPath)
    (hp : p.segments < st.arrays.length) (s1 s2 : PathSegment) :
    (HeapPath.copy st p).2.originPosition = p.originPosition ∧
      (HeapPath.copy st p).2.segments ≠ p.segments ∧
      (HeapPath.copy st p).1.getSegments (HeapPath.copy st p).2.segments =
        st.getSegments p.segments ∧
      (HeapPath.copy st p).1.getSegments p.segments =
        st.getSegments p.segments ∧
      (HeapPath.addSegment (HeapPath.copy st p).1 (HeapPath.copy st p).2
          s1).getSegments p.segments =
        (HeapPath.copy st p).1.getSegments p.segments ∧
      (HeapPath.addSegment (HeapPath.copy st p).1 p s2).getSegments
          (HeapPath.copy st p).2.segments =
        (HeapPath.copy st p).1.getSegments (HeapPath.copy st p).2.segments := by
  have hfreshseg : (HeapPath.copy st p).2.segments = st.arrays.length := rfl
  have hne : st.arrays.length ≠ p.segments := (Nat.lt_iff_le_and_ne.mp hp).2.symm
  have hst1len : (SegmentStore.mk (st.arrays ++ [[]])).arrays.length =
      st.arrays.length + 1 := by simp
  have hlt1 : st.arrays.length < (SegmentStore.mk (st.arrays ++ [[]])).arrays.length := by
    rw [hst1len]; omega
  have hfold := HeapPath.addSegment_fold
    (HeapPath.mk p.originPosition p.originHeading st.arrays.length)
    (st.getSegments p.segments) (SegmentStore.mk (st.arrays ++ [[]])) hlt1
  have hst1self : (SegmentStore.mk (st.arrays ++ [[]])).getSegments
      st.arrays.length = [] := by
    simp [SegmentStore.getSegments, List.getD_eq_getElem?_getD]
  have hst1other : ∀ r2, r2 < st.arrays.length →
      (SegmentStore.mk (st.arrays ++ [[]])).getSegments r2 =
        st.getSegments r2 := by
    intro r2 hr2
    simp [SegmentStore.getSegments, List.getD_eq_getElem?_getD,
      List.getElem?_append, hr2]
  have hcopy1 : (HeapPath.copy st p).1 =
      (st.getSegments p.segments).foldl
        (fun acc s => HeapPath.addSegment acc
          (HeapPath.mk p.originPosition p.originHeading st.arrays.length)
          s.copy)
        (SegmentStore.mk (st.arrays ++ [[]])) := rfl
  have hcopyself : (HeapPath.copy st p).1.getSegments st.arrays.length =
      st.getSegments p.segments := by
    rw [hcopy1, hfold.2.1, hst1self, List.nil_append,
      show PathSegment.copy = id from funext fun s => rfl, List.map_id]
  have hcopyorig : (HeapPath.copy st p).1.getSegments p.segments =
      st.getSegments p.segments := by
    rw [hcopy1, hfold.2.2 p.segments (fun h => hne h.symm),
      hst1other p.segments hp]
  have hcopylen : (HeapPath.copy st p).1.arrays.length =
      st.arrays.length + 1 := by
    rw [hcopy1, hfold.1, hst1len]
  refine ⟨rfl, by rw [hfreshseg]; exact hne, ?_, hcopyorig, ?_, ?_⟩
  · rw [hfreshseg]; exact hcopyself
  · simp only [HeapPath.addSegment, hfreshseg]
    exact SegmentStore.getSegments_set_ne _ st.arrays.length p.segments _ hne
  · simp only [HeapPath.addSegment, hfreshseg]
    exact SegmentStore.getSegments_set_ne _ p.segments st.arrays.length _
      fun h => hne h.symm

/-- C7 witness. -/
theorem heapPath_copy_independent_witness :
    ((HeapPath.mk 4 0 0).segments <
        (SegmentStore.mk [[PathSegment.mk 1 2]]).arrays.length) ∧
      (HeapPath.copy (SegmentStore.mk [[PathSegment.mk 1 2]])
          (HeapPath.mk 4 0 0)).2.originPosition = (HeapPath.mk 4 0 0).originPosition ∧
      (HeapPath.addSegment
          (HeapPath.copy (SegmentStore.mk [[PathSegment.mk 1 2]])
            (HeapPath.mk 4 0 0)).1
          (HeapPath.copy (SegmentStore.mk [[PathSegment.mk 1 2]])
            (HeapPath.mk 4 0 0)).2
          (PathSegment.mk 3 4)).getSegments (HeapPath.mk 4 0 0).segments =
        (HeapPath.copy (SegmentStore.mk [[PathSegment.mk 1 2]])
          (HeapPath.mk 4 0 0)).1.getSegments (HeapPath.mk 4 0 0).segments := by
  have h :=
    heapPath_copy_independent (SegmentStore.mk [[PathSegment.mk 1 2]])
      (HeapPath.mk 4 0 0) (by simp) (PathSegment.mk 3 4) (PathSegment.mk 5 6)
  exact ⟨by simp, h.1, h.2.2.2.2.1⟩

/-! ## Overrun particles in `calculateParticlePositions` -/

theorem totalDistance_cons (g : PathSegment) (segs : List PathSegment) :
    totalDistance (g :: segs) = g.distance + totalDistance segs := by
  simp [totalDistance]

theorem totalDistance_nonneg (segs : List PathSegment)
    (h : ∀ g ∈ segs, 0 ≤ g.distance) : 0 ≤ totalDistance segs := by
  induction segs with
  | nil => simp [totalDistance]
  | cons g rest ih =>
    rw [totalDistance_cons]
    have h1 := h g (List.mem_cons_self g rest)
    have h2 := ih fun g2 hg2 => h g2 (List.mem_cons_of_mem _ hg2)
    linarith

theorem Smoke.pinAndFade_position (pos : Vec) (p : SmokeParticle) :
    (Smoke.pinAndFade pos p).position = pos := by
  simp only [Smoke.pinAndFade, SmokeParticle.fadeOut]
  split_ifs <;> rfl

theorem Smoke.pinAndFade_alphaDirection (pos : Vec) (p : SmokeParticle) :
    (Smoke.pinAndFade pos p).alphaDirection = -1 := by
  simp only [Smoke.pinAndFade, SmokeParticle.fadeOut]
  split_ifs with h
  · rfl
  · simpa using h

theorem Smoke.pinAndFade_distance (pos : Vec) (p : SmokeParticle) :
    (Smoke.pinAndFade pos p).distance = p.distance := by
  simp only [Smoke.pinAndFade, SmokeParticle.fadeOut]
  split_ifs <;> rfl

theorem Vec.add_zero_pair (v : Vec) : v + ((0 : ℚ), (0 : ℚ)) = v :=
  add_zero v

/-- Bookkeeping invariant of the inner placement loop: with
`rd = (first pending particle's distance) - base`, every particle placed
into the current segment is the corresponding input particle moved to
`pos + setMag(vec, its distance - base)`, and its relative distance is at
most the segment length; on a break, the returned pending suffix is
non-empty, drawn from the input, and its `remainingDistance` satisfies the
same invariant with the same `base`. -/
theorem Smoke.placeLoop_spec (host : Host) (pos vec : Vec) (segDist : ℚ) :
    ∀ (pending : List SmokeParticle) (rd base : ℚ), pending ≠ [] →
      rd = pending.headI.distance - base →
      ((∀ q ∈ (Smoke.placeLoop host pos vec segDist pending rd).1,
          ∃ p ∈ pending,
            q = { p with position := pos + host.setMag vec (p.distance - base) } ∧
              p.distance - base ≤ segDist) ∧
        ∀ pending2 rd2,
          (Smoke.placeLoop host pos vec segDist pending rd).2 =
              some (pending2, rd2) →
            pending2 ≠ [] ∧ rd2 = pending2.headI.distance - base ∧
              ∀ p ∈ pending2, p ∈ pending) := by
  intro pending
  induction pending with
  | nil => intro rd base hne; exact absurd rfl hne
  | cons p0 rest ih =>
    intro rd base _hne heq
    have heq0 : rd = p0.distance - base := by
      simpa [List.headI] using heq
    cases rest with
    | nil =>
      simp only [Smoke.placeLoop]
      split_ifs with hge
      · refine ⟨?_, ?_⟩
        · intro q hq
          simp only [List.mem_singleton] at hq
          refine ⟨p0, by simp, ?_, by rw [← heq0]; exact hge⟩
          rw [hq, heq0]
        · intro pending2 rd2 h2
          simp at h2
      · refine ⟨?_, ?_⟩
        · intro q hq
          simp at hq
        · intro pending2 rd2 h2
          simp only [Option.some.injEq, Prod.mk.injEq] at h2
          refine ⟨by rw [← h2.1]; simp, ?_, ?_⟩
          · rw [← h2.1, ← h2.2]
            exact heq
          · intro p hp
            rw [← h2.1] at hp
            exact hp
    | cons q1 rest2 =>
      have heq1 : rd + q1.distance - p0.distance =
          (q1 :: rest2).headI.distance - base := by
        simp only [List.headI]
        rw [heq0]
        ring
      have ihq := ih (rd + q1.distance - p0.distance) base (by simp) heq1
      simp only [Smoke.placeLoop]
      split_ifs with hge
      · refine ⟨?_, ?_⟩
        · intro q hq
          simp only [List.mem_cons] at hq
          rcases hq with hq | hq
          · refine ⟨p0, by simp, ?_, by rw [← heq0]; exact hge⟩
            rw [hq, heq0]
          · obtain ⟨p, hp, hqp, hple⟩ := ihq.1 q hq
            exact ⟨p, List.mem_cons_of_mem _ hp, hqp, hple⟩
        · intro pending2 rd2 h2
          obtain ⟨h2ne, h2eq, h2sub⟩ := ihq.2 pending2 rd2 h2
          exact ⟨h2ne, h2eq, fun p hp => List.mem_cons_of_mem _ (h2sub p hp)⟩
      · refine ⟨?_, ?_⟩
        · intro q hq
          simp at hq
        · intro pending2 rd2 h2
          simp only [Option.some.injEq, Prod.mk.injEq] at h2
          refine ⟨by rw [← h2.1]; simp, ?_, ?_⟩
          · rw [← h2.1, ← h2.2]
            exact heq
          · intro p hp
            rw [← h2.1] at hp
            exact hp

/-- The segment loop pins every overrunning particle (relative distance
beyond the remaining arc length) at the final vertex of the remaining
path and leaves it fading out. -/
theorem Smoke.segmentLoop_overrun (host : Host)
    (hmag : ∀ θ d, 0 ≤ d → host.mag (host.fromAngle θ d) = d) :
    ∀ (segs : List PathSegment) (pos : Vec) (h : ℚ)
      (pending : List SmokeParticle) (rd base : ℚ),
      pending ≠ [] → rd = pending.headI.distance - base →
      (∀ g ∈ segs, 0 ≤ g.distance) →
      ∀ q ∈ Smoke.segmentLoop host segs pos h pending rd,
        base + totalDistance segs < q.distance →
          q.position = pos + pathVectorSum host.fromAngle h segs ∧
            q.alphaDirection = -1 ∧
            ∃ p ∈ pending, p.distance = q.distance ∧
              q = Smoke.pinAndFade
                (pos + pathVectorSum host.fromAngle h segs) p := by
  intro segs
  induction segs with
  | nil =>
    intro pos h pending rd base _hne _heq _hsegs q hq _hlt
    simp only [Smoke.segmentLoop, List.mem_map] at hq
    obtain ⟨p, hp, hqp⟩ := hq
    rw [pathVectorSum, Vec.add_zero_pair]
    refine ⟨?_, ?_, p, hp, ?_, hqp.symm⟩
    · rw [← hqp, Smoke.pinAndFade_position]
    · rw [← hqp, Smoke.pinAndFade_alphaDirection]
    · rw [← hqp, Smoke.pinAndFade_distance]
  | cons seg rest ih =>
    intro pos h pending rd base hne heq hsegs q hq hlt
    have hseg0 : (0 : ℚ) ≤ seg.distance :=
      hsegs seg (List.mem_cons_self seg rest)
    have hrest : ∀ g ∈ rest, 0 ≤ g.distance := fun g hg =>
      hsegs g (List.mem_cons_of_mem _ hg)
    have hrestnn : 0 ≤ totalDistance rest := totalDistance_nonneg rest hrest
    have hspec := Smoke.placeLoop_spec host pos
      (host.fromAngle (h + seg.angle) seg.distance) seg.distance pending rd
      base hne heq
    have hvert : pos + pathVectorSum host.fromAngle h (seg :: rest) =
        (pos + host.fromAngle (h + seg.angle) seg.distance) +
          pathVectorSum host.fromAngle (h + seg.angle) rest := by
      rw [pathVectorSum, add_assoc]
    have hplaced : ∀ q2 ∈ (Smoke.placeLoop host pos
        (host.fromAngle (h + seg.angle) seg.distance) seg.distance pending
        rd).1, ¬(base + totalDistance (seg :: rest) < q2.distance) := by
      intro q2 hq2
      obtain ⟨p, _hp, hqp, hple⟩ := hspec.1 q2 hq2
      have hqd : q2.distance = p.distance := by rw [hqp]
      rw [hqd, totalDistance_cons]
      push_neg
      linarith
    simp only [Smoke.segmentLoop] at hq
    rcases hout : (Smoke.placeLoop host pos
        (host.fromAngle (h + seg.angle) seg.distance) seg.distance pending
        rd).2 with _ | ⟨pending2, rd2⟩
    · rw [hout] at hq
      simp only at hq
      exact absurd hlt (hplaced q hq)
    · rw [hout] at hq
      simp only [List.mem_append] at hq
      rcases hq with hq | hq
      · exact absurd hlt (hplaced q hq)
      · obtain ⟨h2ne, h2eq, h2sub⟩ := hspec.2 pending2 rd2 hout
        have hmagv : host.mag (host.fromAngle (h + seg.angle) seg.distance) =
            seg.distance := hmag _ _ hseg0
        have heq2 : rd2 - host.mag (host.fromAngle (h + seg.angle)
            seg.distance) = pending2.headI.distance - (base + seg.distance) := by
          rw [hmagv, h2eq]
          ring
        have hlt2 : (base + seg.distance) + totalDistance rest < q.distance := by
          rw [totalDistance_cons] at hlt
          linarith
        obtain ⟨hqpos, hqdir, p, hp, hpd, hqp⟩ :=
          ih (pos + host.fromAngle (h + seg.angle) seg.distance)
            (h + seg.angle) pending2 _ (base + seg.distance) h2ne heq2 hrest
            q hq hlt2
        refine ⟨?_, hqdir, p, h2sub p hp, hpd, ?_⟩
        · rw [hvert]
          exact hqpos
        · rw [hvert]
          exact hqp

/-- C2: after `calculateParticlePositions` on a non-empty particle list
sorted ascending by distance (with the path's segment distances
non-negative and the host's `fromAngle`/`mag` law), every resulting
particle whose distance exceeds the total path length has its position set
to the path's final vertex and is not fading-in afterward: its direction
flag is -1, and it arises from an input particle of the same distance that
was pinned at the final vertex with `fadeOut` invoked on it exactly when
it was not already fading out. -/
theorem calculateParticlePositions_overrun (host : Host) (s : Smoke)
    (hmag : ∀ θ d, 0 ≤ d → host.mag (host.fromAngle θ d) = d)
    (hne : s.particles ≠ [])
    (_hsorted : s.particles.Pairwise (fun a b => a.distance ≤ b.distance))
    (hseg : ∀ g ∈ s.segments, 0 ≤ g.distance) :
    ∀ q ∈ (Smoke.calculateParticlePositions host s).particles,
      totalDistance s.segments < q.distance →
        q.position = Smoke.finalVertex host s ∧
          q.alphaDirection = -1 ∧
          ∃ p ∈ s.particles, p.distance = q.distance ∧
            q = Smoke.pinAndFade (Smoke.finalVertex host s) p := by
  intro q hq hlt
  rw [Smoke.calculateParticlePositions, if_neg hne] at hq
  simp only at hq
  have hover := Smoke.segmentLoop_overrun host hmag s.segments
    s.originPosition s.originHeading s.particles s.particles.headI.distance 0
    hne (by ring) hseg q hq (by rw [zero_add]; exact hlt)
  exact hover

/-- A fixed concrete overrunning particle: distance 5 on a path of total
length 2. -/
def pW : SmokeParticle :=
  ⟨1, 120, 5, 0, 0, ((0 : ℚ), (0 : ℚ)), 2, 0, 3, 200, 0, true⟩

/-- A fixed concrete Smoke with one segment of length 2 and one particle
at distance 5. -/
def smokeW : Smoke :=
  { originPosition := (0, 0)
    originHeading := 0
    segments := [PathSegment.mk 0 2]
    particles := [pW] }

/-- C2 witness. -/
theorem calculateParticlePositions_overrun_witness :
    (totalDistance smokeW.segments <
        ((Smoke.calculateParticlePositions hostW smokeW).particles.getD 0
          probe).distance) ∧
      ((Smoke.calculateParticlePositions hostW smokeW).particles.getD 0
          probe).position = Smoke.finalVertex hostW smokeW ∧
      ((Smoke.calculateParticlePositions hostW smokeW).particles.getD 0
          probe).alphaDirection = -1 ∧
      ∃ p ∈ smokeW.particles,
        p.distance = ((Smoke.calculateParticlePositions hostW
          smokeW).particles.getD 0 probe).distance ∧
        (Smoke.calculateParticlePositions hostW smokeW).particles.getD 0
            probe = Smoke.pinAndFade (Smoke.finalVertex hostW smokeW) p := by
  have hmagW : ∀ θ d : ℚ, 0 ≤ d → hostW.mag (hostW.fromAngle θ d) = d := by
    intro θ d hd
    simp only [hostW]
    exact abs_of_nonneg hd
  have hres : (Smoke.calculateParticlePositions hostW smokeW).particles =
      [Smoke.pinAndFade ((2 : ℚ), (0 : ℚ)) pW] := by
    norm_num [Smoke.calculateParticlePositions, Smoke.segmentLoop,
      Smoke.placeLoop, Smoke.pinAndFade, SmokeParticle.fadeOut, smokeW,
      hostW, pW, List.headI]
  have hget : (Smoke.calculateParticlePositions hostW smokeW).particles.getD 0
      probe = Smoke.pinAndFade ((2 : ℚ), (0 : ℚ)) pW := by
    rw [hres]
    rfl
  have hmem : (Smoke.calculateParticlePositions hostW smokeW).particles.getD 0
      probe ∈ (Smoke.calculateParticlePositions hostW smokeW).particles := by
    rw [hget, hres]
    simp
  have hlt : totalDistance smokeW.segments <
      ((Smoke.calculateParticlePositions hostW smokeW).particles.getD 0
        probe).distance := by
    rw [hget, Smoke.pinAndFade_distance]
    norm_num [totalDistance, smokeW, pW]
  have h :=
    calculateParticlePositions_overrun hostW smokeW hmagW
      (by norm_num [smokeW]) (by norm_num [smokeW])
      (by norm_num [smokeW]) _ hmem hlt
  exact ⟨hlt, h⟩
